import Mathlib

/-!
Shallow embedding of the EPG pipeline of `python_iptv` (files
`src/epg_manager.py` and `src/epg_merger.py`) together with proofs about it.

Conventions of the embedding:
- Python strings are Lean `String` / `List Char`; the ASCII fragment of
  `str.upper`, `str.strip` and the regex classes is modelled exactly.
- Instants (`datetime`) are `Int` timestamps in seconds; `timedelta(hours=h)`
  is `h * 3600`.  The calendar arithmetic of `strptime` is abstracted: a
  programme element carries the already-parsed `Option Int` result of
  `parse_xmltv_date` (`none` for a missing attribute or a malformed
  timestamp; both cases make the code skip the element identically).
- Python dicts are association lists in insertion order (`alLookup`,
  `alSet` = `d[k] = v`, `alUpdate` = `d.update(...)`).
- The XML event stream of `ET.iterparse` is a `ParseStream`: the list of
  well-formed top-level elements the iterator yielded, plus a flag recording
  that iteration afterwards raised a parsing exception (the `except` block of
  `EPGParser.parse` swallows it, so the flag does not influence the result).
- I/O (network download, cache files) is abstracted to the value the
  surrounding code receives: `Option` bytes/streams for fallible downloads,
  and the three observations `is_valid` makes of the cache directory.
-/

/-- The ASCII characters Python's `str.strip` and the regex class `\s`
treat as whitespace. -/
def pyIsSpace (c : Char) : Bool :=
  c = ' ' || c = '\t' || c = '\n' || c = '\r' || c = '\x0b' || c = '\x0c'

/-- `str.upper` on one character (ASCII fragment). -/
def pyUpperChar (c : Char) : Char :=
  if 'a' ≤ c ∧ c ≤ 'z' then Char.ofNat (c.toNat - 32) else c

/-- `str.upper` on a string, as a list of characters. -/
def pyUpper (l : List Char) : List Char := l.map pyUpperChar

/-- `str.strip`: drop whitespace from both ends. -/
def pyStrip (l : List Char) : List Char :=
  ((l.dropWhile pyIsSpace).reverse.dropWhile pyIsSpace).reverse

/-- The character class `[A-Z0-9]` kept by the final substitution of
`EPGParser.normalize_name`. -/
def isAZ09 (c : Char) : Bool :=
  ('A' ≤ c && c ≤ 'Z') || ('0' ≤ c && c ≤ '9')

/-- The alternatives of the quality-suffix regex
`\s+(HD|FHD|SD|HEVC|H265|4K).*`, in Python's alternation order. -/
def qualityTokens : List (List Char) :=
  [['H','D'], ['F','H','D'], ['S','D'], ['H','E','V','C'], ['H','2','6','5'], ['4','K']]

/-- `.*` without `re.DOTALL`: the match extends to the next newline or the
end of the string; this drops exactly the characters it consumes. -/
def dropRestOfLine (l : List Char) : List Char :=
  l.dropWhile (fun c => c ≠ '\n')

/-- One substitution pass of `re.sub(r'^(IT|CH)\s*-\s*', '', n, flags=IGNORECASE)`:
anchored at the start, the prefix `IT`/`CH` (case-insensitive), greedy
whitespace, a mandatory dash, greedy whitespace. -/
def stripCountry (l : List Char) : List Char :=
  match l with
  | c1 :: c2 :: rest =>
    if (pyUpperChar c1 = 'I' ∧ pyUpperChar c2 = 'T') ∨
       (pyUpperChar c1 = 'C' ∧ pyUpperChar c2 = 'H') then
      match rest.dropWhile pyIsSpace with
      | '-' :: r2 => r2.dropWhile pyIsSpace
      | _ => l
    else l
  | _ => l

/-- `re.sub(r'\s+(HD|FHD|SD|HEVC|H265|4K).*', '', n)`: scan left to right;
at a whitespace run followed by a quality token, delete from the run to the
end of the line and resume scanning there.  The `fuel` argument only makes
the recursion structural; every step consumes at least one character, so
`length + 1` fuel never runs out. -/
def stripQualityF : Nat → List Char → List Char
  | _, [] => []
  | 0, l => l
  | fuel + 1, c :: rest =>
    if pyIsSpace c then
      match qualityTokens.find? (fun t => t.isPrefixOf (rest.dropWhile pyIsSpace)) with
      | some t => stripQualityF fuel (dropRestOfLine ((rest.dropWhile pyIsSpace).drop t.length))
      | none => c :: stripQualityF fuel rest
    else c :: stripQualityF fuel rest

/-- The quality-suffix substitution on a whole string. -/
def stripQuality (l : List Char) : List Char := stripQualityF (l.length + 1) l

/-- `EPGParser.normalize_name` on a list of characters: empty check, upper
and strip, country-prefix removal, quality-suffix removal, restriction to
`A-Z0-9`, final strip. -/
def normalizeList (l : List Char) : List Char :=
  if l = [] then []
  else pyStrip ((stripQuality (stripCountry (pyStrip (pyUpper l)))).filter isAZ09)

/-- `EPGParser.normalize_name`. -/
def normalize_name (s : String) : String := ⟨normalizeList s.data⟩

/-! ### Python dicts as association lists (insertion order preserved) -/

/-- `d.get(k)` / `k in d`. -/
def alLookup {κ α : Type} [DecidableEq κ] (k : κ) : List (κ × α) → Option α
  | [] => none
  | (k', v) :: rest => if k' = k then some v else alLookup k rest

/-- `d[k] = v`: overwrite in place if present, else append. -/
def alSet {κ α : Type} [DecidableEq κ] (k : κ) (v : α) : List (κ × α) → List (κ × α)
  | [] => [(k, v)]
  | (k', v') :: rest => if k' = k then (k', v) :: rest else (k', v') :: alSet k v rest

/-- `d.update(new)`: assign every pair of `new`, in order. -/
def alUpdate {κ α : Type} [DecidableEq κ] (m new : List (κ × α)) : List (κ × α) :=
  new.foldl (fun acc kv => alSet kv.1 kv.2 acc) m

/-- `d.setdefault(k, []).extend(vs)`: append to the list stored under `k`,
creating it when absent (the merge idiom of `EPGManager._load_source` and
the append idiom of `EPGParser.parse`). -/
def alAppendList {κ α : Type} [DecidableEq κ] (k : κ) (vs : List α) :
    List (κ × List α) → List (κ × List α)
  | [] => [(k, vs)]
  | (k', v') :: rest =>
    if k' = k then (k', v' ++ vs) :: rest else (k', v') :: alAppendList k vs rest

/-! ### `EPGParser.parse` and the `EPGManager` index -/

/-- `ChannelInfo` of `epg_manager.py`. -/
structure ChannelInfo where
  id : String
  display_name : String
  icon : Option String
  normalized_name : String
deriving DecidableEq

/-- `Program` of `epg_manager.py`; `start`/`stop` are timestamps in seconds. -/
structure Program where
  channel_id : String
  start : Int
  stop : Int
  title : String
  desc : String
deriving DecidableEq

/-- `Program.is_current_or_future`. -/
def Program.is_current_or_future (p : Program) (now : Int) : Bool :=
  decide (p.stop > now)

/-- One top-level element yielded by `ET.iterparse`.  Attributes are
`Option String` (`none` = attribute missing); the `start`/`stop` attributes
of a programme carry the `Option Int` result of `parse_xmltv_date`
(`none` = attribute missing or timestamp malformed — the code skips the
element identically in both cases).  A child element's text is collapsed
with the missing-child case into one `Option String`. -/
inductive XmlNode where
  | channel (id : Option String) (displayName : Option String) (icon : Option String)
  | programme (channel : Option String) (start : Option Int) (stop : Option Int)
      (title : Option String) (desc : Option String)
deriving DecidableEq

/-- What `ET.iterparse` produced: the elements yielded before iteration
ended, and whether iteration then raised a parsing exception (which
`EPGParser.parse` catches and swallows). -/
structure ParseStream where
  events : List XmlNode
  errored : Bool
deriving DecidableEq

/-- `EPGParser.PROGRAM_WINDOW_HOURS = 24 * 7`. -/
def PROGRAM_WINDOW_HOURS : Int := 24 * 7

/-- Python truthiness of an optional string attribute (`if not x: skip`). -/
def truthyAttr : Option String → Bool
  | none => false
  | some s => decide (s ≠ "")

/-- `pat in s` for strings (substring containment). -/
def listContainsSub (s pat : List Char) : Bool :=
  match s with
  | [] => pat.isEmpty
  | c :: rest => pat.isPrefixOf (c :: rest) || listContainsSub rest pat

/-- `pat in s` on `String`. -/
def strContains (s pat : String) : Bool := listContainsSub s.data pat.data

/-- `"Swiss" in source_name or "RSI" in source_name`. -/
def swissFilterActive (sourceName : String) : Bool :=
  strContains sourceName "Swiss" || strContains sourceName "RSI"

/-- The `channel` branch of the `EPGParser.parse` loop. -/
def parseChannelStep (sourceName : String) (channels : List (String × ChannelInfo))
    (id displayName icon : Option String) : List (String × ChannelInfo) :=
  if truthyAttr id then
    let cid := id.getD ""
    let dn := displayName.getD ""
    if swissFilterActive sourceName ∧ normalize_name dn ∉ ["RSILA1", "RSILA2"] then
      channels
    else
      alSet cid ⟨cid, dn, icon, normalize_name dn⟩ channels
  else channels

/-- The `programme` branch of the `EPGParser.parse` loop: requires the
channel attribute and both parsed timestamps, drops programmes already over
(`stop < now`) or starting beyond `now + PROGRAM_WINDOW_HOURS`
(`cutoff`), then appends.  No `start < stop` comparison appears here. -/
def parseProgrammeStep (now : Int) (programs : List (String × List Program))
    (channel : Option String) (startT stopT : Option Int) (title desc : Option String) :
    List (String × List Program) :=
  if truthyAttr channel then
    match startT, stopT with
    | some startDt, some stopDt =>
      if stopDt < now then programs
      else if startDt > now + PROGRAM_WINDOW_HOURS * 3600 then programs
      else
        alAppendList (channel.getD "")
          [⟨channel.getD "", startDt, stopDt, title.getD "N/A", desc.getD ""⟩] programs
    | _, _ => programs
  else programs

/-- One iteration of the `EPGParser.parse` loop. -/
def parseStep (sourceName : String) (now : Int)
    (acc : List (String × ChannelInfo) × List (String × List Program)) (e : XmlNode) :
    List (String × ChannelInfo) × List (String × List Program) :=
  match e with
  | .channel id dn icon => (parseChannelStep sourceName acc.1 id dn icon, acc.2)
  | .programme ch s e' t d => (acc.1, parseProgrammeStep now acc.2 ch s e' t d)

/-- `EPGParser.parse`: fold over the yielded elements; an exception after
the last yielded element is caught, so the accumulated result is returned
whether or not `stream.errored` is set. -/
def parse (stream : ParseStream) (sourceName : String) (now : Int) :
    List (String × ChannelInfo) × List (String × List Program) :=
  stream.events.foldl (parseStep sourceName now) ([], [])

/-- The in-memory index of `EPGManager`. -/
structure EPGManager where
  channels : List (String × ChannelInfo)
  programs : List (String × List Program)
  name_to_id : List (String × String)
deriving DecidableEq

/-- A fresh `EPGManager()`. -/
def emptyManager : EPGManager := ⟨[], [], []⟩

/-- One entry of `EPGManager.sources`, with the bytes the cache/download
plumbing of `_load_source` handed to the parser (`none` = both cache and
download failed). -/
structure SourceInput where
  name : String
  enabled : Bool
  content : Option ParseStream
deriving DecidableEq

/-- The program-merge loop of `_load_source`: for each channel of the
parsed output, create-if-absent then `extend`. -/
def extendPrograms (m new : List (String × List Program)) : List (String × List Program) :=
  new.foldl (fun acc kv => alAppendList kv.1 kv.2 acc) m

/-- `EPGManager._load_source`: on content, parse and merge —
`self.channels.update(channels)` and per-channel `extend` of programs. -/
def loadSource (st : EPGManager) (name : String) (content : Option ParseStream)
    (now : Int) : EPGManager × Bool :=
  match content with
  | none => (st, false)
  | some stream =>
    let parsed := parse stream name now
    ({ st with
        channels := alUpdate st.channels parsed.1,
        programs := extendPrograms st.programs parsed.2 },
      true)

/-- `EPGManager._build_name_index`. -/
def buildNameIndex (channels : List (String × ChannelInfo)) : List (String × String) :=
  channels.foldl (fun acc kv => alSet kv.2.normalized_name kv.1 acc) []

/-- One iteration of the `load_all` source loop: skip disabled sources,
otherwise load and accumulate the success flag. -/
def loadStep (now : Int) (acc : EPGManager × Bool) (src : SourceInput) :
    EPGManager × Bool :=
  if src.enabled then
    let r := loadSource acc.1 src.name src.content now
    (r.1, acc.2 || r.2)
  else acc

/-- `EPGManager.load_all`: fold the enabled sources, then rebuild the name
index; returns true iff some source loaded. -/
def loadAll (st : EPGManager) (sources : List SourceInput) (now : Int) :
    EPGManager × Bool :=
  let folded := sources.foldl (loadStep now) (st, false)
  ({ folded.1 with name_to_id := buildNameIndex folded.1.channels }, folded.2)

/-- `EPGManager.get_current_program`: optional fallback through the name
index, then a scan returning the first program with
`prog.start <= now <= prog.stop`; the sentinel when the channel has a
programs entry but no interval matches; all-`none` when it has none. -/
def get_current_program (st : EPGManager) (channelId : String)
    (normName : Option String) (now : Int) :
    Option String × Option String × Option Int × Option Int :=
  let cid :=
    match alLookup channelId st.programs, normName with
    | none, some n =>
      if n ≠ "" then (alLookup n st.name_to_id).getD channelId else channelId
    | _, _ => channelId
  match alLookup cid st.programs with
  | none => (none, none, none, none)
  | some progs =>
    match progs.find? (fun p => decide (p.start ≤ now) && decide (now ≤ p.stop)) with
    | some p => (some p.title, some p.desc, some p.start, some p.stop)
    | none => (some "No Info Available", some "", none, none)

/-! ### `EPGCache.is_valid` -/

/-- `timedelta(hours=h)` in seconds. -/
def ttlOfHours (h : Int) : Int := h * 3600

/-- What `EPGCache.is_valid` observes of the cache directory:
whether each of the two files exists, and the parsed `timestamp` field of
the metadata (`none` = open/JSON/key/`fromisoformat` failure — every such
exception lands in the same `except` clause). -/
structure CacheView where
  metaExists : Bool
  cacheExists : Bool
  metaTimestamp : Option Int
deriving DecidableEq

/-- `EPGCache.is_valid`. -/
def is_valid (v : CacheView) (now ttl : Int) : Bool :=
  if !v.metaExists || !v.cacheExists then false
  else
    match v.metaTimestamp with
    | none => false
    | some t => decide (now - t < ttl)

/-! ### `epg_merger.merge_epg` -/

/-- One top-level element of a source document as the Merger sees it:
the attributes it reads, the `display-name` texts (for the CH filter), and
an opaque `payload` standing for everything else in the element (titles,
descriptions, children) so that content conflicts are representable.
A missing attribute is collapsed with the empty string, exactly as
`elem.get("channel", "")` does. -/
inductive MElem where
  | channel (id : String) (displayNames : List String) (payload : String)
  | programme (chan : String) (startAttr : String) (payload : String)
deriving DecidableEq

/-- `CH_ALLOWED_IDS`. -/
def CH_ALLOWED_IDS : List String := ["RSI La 1.ch", "RSI La 2.ch", "RSILA1.ch", "RSILA2.ch"]

/-- `CH_ALLOWED_NAMES`. -/
def CH_ALLOWED_NAMES : List String := ["RSI LA 1", "RSI LA 2", "RSI LA1", "RSI LA2"]

/-- `_is_ch_source`. -/
def isChSource (name : String) : Bool := "CH_".data.isPrefixOf name.data

/-- Python `str.replace("  ", " ")`: one left-to-right non-overlapping pass. -/
def replaceDoubleSpace : List Char → List Char
  | ' ' :: ' ' :: rest => ' ' :: replaceDoubleSpace rest
  | c :: rest => c :: replaceDoubleSpace rest
  | [] => []

/-- `dn.text.strip().upper().replace("  ", " ")`. -/
def dnKey (s : String) : String := ⟨replaceDoubleSpace (pyUpper (pyStrip s.data))⟩

/-- `_is_allowed_ch_channel`. -/
def isAllowedChChannel (id : String) (displayNames : List String) : Bool :=
  CH_ALLOWED_IDS.contains id ||
    displayNames.any (fun dn =>
      decide (dn ≠ "") &&
        (CH_ALLOWED_NAMES.map (fun n => (⟨pyUpper n.data⟩ : String))).contains (dnKey dn))

/-- The merge accumulator of `merge_epg`. -/
structure MergeState where
  channels : List (String × MElem)
  programmes : List ((String × String) × MElem)
  allowedCh : List String
  loaded : Nat
deriving DecidableEq

/-- `if k not in d: d[k] = v` — first writer wins. -/
def insertIfNew {κ α : Type} [DecidableEq κ] (k : κ) (v : α) (m : List (κ × α)) :
    List (κ × α) :=
  match alLookup k m with
  | some _ => m
  | none => m ++ [(k, v)]

/-- `s.add(x)` on a set kept as a duplicate-free list. -/
def addToSet (x : String) (s : List String) : List String :=
  if x ∈ s then s else s ++ [x]

/-- One iteration of the channel pass of `merge_epg`. -/
def mergeChanStep (isCh : Bool) (acc : MergeState) (e : MElem) : MergeState :=
  match e with
  | .channel id dns _ =>
    if id = "" then acc
    else if isCh then
      if isAllowedChChannel id dns then
        { acc with
            allowedCh := addToSet id acc.allowedCh,
            channels := insertIfNew id e acc.channels }
      else acc
    else { acc with channels := insertIfNew id e acc.channels }
  | .programme _ _ _ => acc

/-- The channel pass of one source in `merge_epg`
(`for ch_elem in root.findall("channel")`). -/
def processChannels (isCh : Bool) (st : MergeState) (elems : List MElem) : MergeState :=
  elems.foldl (mergeChanStep isCh) st

/-- One iteration of the programme pass of `merge_epg`. -/
def mergeProgStep (isCh : Bool) (acc : MergeState) (e : MElem) : MergeState :=
  match e with
  | .programme ch start _ =>
    if ch = "" ∨ start = "" then acc
    else if isCh ∧ ch ∉ acc.allowedCh then acc
    else { acc with programmes := insertIfNew (ch, start) e acc.programmes }
  | .channel _ _ _ => acc

/-- The programme pass of one source in `merge_epg`
(`for prog_elem in root.findall("programme")`). -/
def processProgrammes (isCh : Bool) (st : MergeState) (elems : List MElem) : MergeState :=
  elems.foldl (mergeProgStep isCh) st

/-- One iteration of the source loop of `merge_epg`; `doc = none` stands
for a failed download or an `ET.ParseError`, both of which `continue`. -/
def processSource (st : MergeState) (name : String) (doc : Option (List MElem)) :
    MergeState :=
  match doc with
  | none => st
  | some elems =>
    let st2 := processProgrammes (isChSource name)
      (processChannels (isChSource name) st elems) elems
    { st2 with loaded := st2.loaded + 1 }

/-- The empty merge accumulator. -/
def initMergeState : MergeState := ⟨[], [], [], 0⟩

/-- The whole source loop of `merge_epg`. -/
def mergeState (sources : List (String × Option (List MElem))) : MergeState :=
  sources.foldl (fun acc s => processSource acc s.1 s.2) initMergeState

/-- Python string comparison, `a < b`: lexicographic by code point. -/
def listLtb : List Char → List Char → Bool
  | [], [] => false
  | [], _ :: _ => true
  | _ :: _, [] => false
  | a :: as, b :: bs => if a < b then true else if b < a then false else listLtb as bs

/-- `a < b` on `String`, as Python compares. -/
def strLtb (a b : String) : Bool := listLtb a.data b.data

/-- `a <= b` on `String`, as Python compares: not `b < a`. -/
def strLeb (a b : String) : Bool := !(strLtb b a)

/-- Sort order of the channel section: `sorted(merged_channels.keys())`. -/
def chanPairLe : (String × MElem) → (String × MElem) → Prop :=
  fun a b => strLeb a.1 b.1 = true

/-- Python tuple comparison `<=` on `(channel_id, start)` keys. -/
def keyLe : (String × String) → (String × String) → Prop :=
  fun a b => strLtb a.1 b.1 = true ∨ (a.1 = b.1 ∧ strLeb a.2 b.2 = true)

/-- Sort order of the programme section: `sorted(merged_programmes.keys())`. -/
def progPairLe : ((String × String) × MElem) → ((String × String) × MElem) → Prop :=
  fun a b => keyLe a.1 b.1

instance : DecidableRel chanPairLe :=
  fun a b => inferInstanceAs (Decidable (strLeb a.1 b.1 = true))

instance : DecidableRel keyLe :=
  fun a b =>
    inferInstanceAs (Decidable (strLtb a.1 b.1 = true ∨ (a.1 = b.1 ∧ strLeb a.2 b.2 = true)))

instance : DecidableRel progPairLe :=
  fun a b => inferInstanceAs (Decidable (keyLe a.1 b.1))

/-- The element list of the output document of `merge_epg` (`none` when no
source loaded and the function returns `False` without writing): channels
sorted by id, then programmes sorted by `(channel, start)`.  Serialization
to bytes is a fixed function of this list, so two runs over equal inputs
write byte-identical files. -/
def mergeOutput (sources : List (String × Option (List MElem))) : Option (List MElem) :=
  let st := mergeState sources
  if st.loaded = 0 then none
  else
    some ((st.channels.insertionSort chanPairLe).map Prod.snd
      ++ (st.programmes.insertionSort progPairLe).map Prod.snd)

/-- Is this element a `channel` element? -/
def isChannelElem : MElem → Bool
  | .channel _ _ _ => true
  | .programme _ _ _ => false

/-- The dedup key of a programme element. -/
def progKeyOf : MElem → Option (String × String)
  | .programme ch start _ => some (ch, start)
  | .channel _ _ _ => none

/-- The id a channel element is indexed by. -/
def elemChanId : MElem → String
  | .channel id _ _ => id
  | .programme ch _ _ => ch

/-- First programme element of a document with a given dedup key. -/
def firstProgWithKey (elems : List MElem) (k : String × String) : Option MElem :=
  elems.find? (fun e => progKeyOf e == some k)

/-- Does this element carry the given dedup key? -/
def hasProgKey (k : String × String) (e : MElem) : Bool :=
  progKeyOf e == some k

/-! ### Predicates used to state the invariants -/

/-- The filters `EPGParser.parse` actually applies to a kept programme:
not already over, not beyond the forward window. -/
def progWindowOK (now : Int) (p : Program) : Prop :=
  now ≤ p.stop ∧ p.start ≤ now + PROGRAM_WINDOW_HOURS * 3600

/-- Every program stored anywhere in a programs map satisfies
`progWindowOK`. -/
def progsMapOK (now : Int) (m : List (String × List Program)) : Prop :=
  ∀ kv ∈ m, ∀ p ∈ kv.2, progWindowOK now p

/-- The keys of an association list are pairwise distinct (true of every
list that models a Python dict). -/
def keysNodup {κ α : Type} (m : List (κ × α)) : Prop :=
  (m.map Prod.fst).Nodup

/-- Every stored channel pair of the Merger maps an id to a channel
element carrying that id. -/
def chanPairsWF (m : List (String × MElem)) : Prop :=
  ∀ kv ∈ m, isChannelElem kv.2 = true ∧ elemChanId kv.2 = kv.1

/-- Every stored programme pair of the Merger maps a key to a programme
element carrying that key. -/
def progPairsWF (m : List ((String × String) × MElem)) : Prop :=
  ∀ kv ∈ m, progKeyOf kv.2 = some kv.1

/-- The structural invariants of the Merger accumulator: both dicts are
well-keyed and duplicate-free. -/
def MergeInv (st : MergeState) : Prop :=
  chanPairsWF st.channels ∧ progPairsWF st.programmes ∧
    keysNodup st.channels ∧ keysNodup st.programmes

theorem pyIsSpace_of_isAZ09 {c : Char} (h : isAZ09 c = true) : pyIsSpace c = false := by
  simp only [isAZ09, Bool.or_eq_true, Bool.and_eq_true, decide_eq_true_eq] at h
  simp only [pyIsSpace]
  refine Bool.or_eq_false_iff.mpr ⟨Bool.or_eq_false_iff.mpr ⟨Bool.or_eq_false_iff.mpr
    ⟨Bool.or_eq_false_iff.mpr ⟨Bool.or_eq_false_iff.mpr ⟨?_, ?_⟩, ?_⟩, ?_⟩, ?_⟩, ?_⟩ <;>
    · rw [decide_eq_false_iff_not]
      rintro rfl
      rcases h with ⟨h1, _⟩ | ⟨h1, _⟩ <;> revert h1 <;> decide

theorem pyUpperChar_of_isAZ09 {c : Char} (h : isAZ09 c = true) : pyUpperChar c = c := by
  simp only [isAZ09, Bool.or_eq_true, Bool.and_eq_true, decide_eq_true_eq] at h
  rw [pyUpperChar, if_neg]
  rintro ⟨ha, _⟩
  rcases h with ⟨_, h2⟩ | ⟨_, h2⟩
  · exact absurd (le_trans ha h2) (by decide)
  · exact absurd (le_trans ha h2) (by decide)

theorem ne_dash_of_isAZ09 {c : Char} (h : isAZ09 c = true) : c ≠ '-' := by
  rintro rfl
  simp only [isAZ09, Bool.or_eq_true, Bool.and_eq_true, decide_eq_true_eq] at h
  rcases h with ⟨h1, _⟩ | ⟨h1, _⟩ <;> revert h1 <;> decide

theorem dropWhile_eq_self_of_all {p : Char → Bool} {l : List Char}
    (h : ∀ c ∈ l, p c = false) : l.dropWhile p = l := by
  cases l with
  | nil => rfl
  | cons c rest =>
    rw [List.dropWhile_cons, h c (List.mem_cons_self c rest)]
    simp only [Bool.false_eq_true, if_false]

theorem pyStrip_eq_self_of_all {l : List Char}
    (h : ∀ c ∈ l, pyIsSpace c = false) : pyStrip l = l := by
  unfold pyStrip
  rw [dropWhile_eq_self_of_all h,
      dropWhile_eq_self_of_all (fun c hc => h c (List.mem_reverse.mp hc)),
      List.reverse_reverse]

theorem mem_of_mem_dropWhile {p : Char → Bool} {l : List Char} {c : Char}
    (h : c ∈ l.dropWhile p) : c ∈ l := by
  induction l with
  | nil => simp at h
  | cons a rest ih =>
    rw [List.dropWhile_cons] at h
    by_cases hp : p a
    · simp only [hp, if_true] at h
      exact List.mem_cons_of_mem a (ih h)
    · simp only [hp] at h
      simpa using h

theorem mem_of_mem_pyStrip {l : List Char} {c : Char} (h : c ∈ pyStrip l) : c ∈ l := by
  unfold pyStrip at h
  rw [List.mem_reverse] at h
  have h2 := mem_of_mem_dropWhile h
  rw [List.mem_reverse] at h2
  exact mem_of_mem_dropWhile h2

theorem normalizeList_all_isAZ09 {l : List Char} {c : Char}
    (h : c ∈ normalizeList l) : isAZ09 c = true := by
  unfold normalizeList at h
  by_cases hl : l = []
  · simp [hl] at h
  · rw [if_neg hl] at h
    exact (List.mem_filter.mp (mem_of_mem_pyStrip h)).2

theorem pyUpper_eq_self_of_all {l : List Char}
    (h : ∀ c ∈ l, isAZ09 c = true) : pyUpper l = l := by
  induction l with
  | nil => rfl
  | cons c rest ih =>
    rw [pyUpper, List.map_cons, pyUpperChar_of_isAZ09 (h c (List.mem_cons_self c rest))]
    exact congrArg (c :: ·) (ih fun d hd => h d (List.mem_cons_of_mem c hd))

theorem stripCountry_eq_self_of_all {l : List Char}
    (h : ∀ c ∈ l, isAZ09 c = true) : stripCountry l = l := by
  rw [stripCountry.eq_def]
  split
  · rename_i c1 c2 rest
    split
    · have hrest : rest.dropWhile pyIsSpace = rest :=
        dropWhile_eq_self_of_all fun c hc' =>
          pyIsSpace_of_isAZ09 (h c (by simp [hc']))
      rw [hrest]
      split
      · exact absurd (h '-' (by simp)) (by decide)
      · rfl
    · rfl
  · rfl

theorem stripQualityF_eq_self_of_nospace {fuel : Nat} {l : List Char}
    (hf : l.length ≤ fuel) (h : ∀ c ∈ l, pyIsSpace c = false) :
    stripQualityF fuel l = l := by
  induction fuel generalizing l with
  | zero =>
    cases l with
    | nil => rfl
    | cons c rest => simp at hf
  | succ fuel ih =>
    cases l with
    | nil => rfl
    | cons c rest =>
      rw [stripQualityF, h c (List.mem_cons_self c rest)]
      simp only [Bool.false_eq_true, if_false]
      exact congrArg (c :: ·)
        (ih (by simpa using Nat.le_of_succ_le_succ (by simpa using hf))
          fun d hd => h d (List.mem_cons_of_mem c hd))

theorem stripQuality_eq_self_of_nospace {l : List Char}
    (h : ∀ c ∈ l, pyIsSpace c = false) : stripQuality l = l :=
  stripQualityF_eq_self_of_nospace (Nat.le_succ _) h

theorem filter_eq_self_of_all {l : List Char}
    (h : ∀ c ∈ l, isAZ09 c = true) : l.filter isAZ09 = l :=
  List.filter_eq_self.mpr h

theorem normalizeList_idem (l : List Char) :
    normalizeList (normalizeList l) = normalizeList l := by
  have hall : ∀ c ∈ normalizeList l, isAZ09 c = true :=
    fun c hc => normalizeList_all_isAZ09 hc
  by_cases h0 : normalizeList l = []
  · rw [h0]; rfl
  · rw [normalizeList, if_neg h0]
    rw [pyUpper_eq_self_of_all hall]
    rw [pyStrip_eq_self_of_all fun c hc => pyIsSpace_of_isAZ09 (hall c hc)]
    rw [stripCountry_eq_self_of_all hall]
    rw [stripQuality_eq_self_of_nospace fun c hc => pyIsSpace_of_isAZ09 (hall c hc)]
    rw [filter_eq_self_of_all hall]
    exact pyStrip_eq_self_of_all fun c hc => pyIsSpace_of_isAZ09 (hall c hc)

/-! ### The `get_current_program` scan -/

theorem find?_append_of_none {α : Type} {p : α → Bool} {l₁ : List α}
    (h : ∀ x ∈ l₁, p x = false) (l₂ : List α) :
    (l₁ ++ l₂).find? p = l₂.find? p := by
  induction l₁ with
  | nil => rfl
  | cons a rest ih =>
    have hpa : ¬ (p a = true) := by simp [h a (List.mem_cons_self a rest)]
    rw [List.cons_append, List.find?_cons_of_neg _ hpa]
    exact ih fun x hx => h x (List.mem_cons_of_mem a hx)

theorem get_current_program_scan (st : EPGManager) (ch : String) (now : Int)
    (l₁ l₂ : List Program) (p : Program)
    (hl : alLookup ch st.programs = some (l₁ ++ p :: l₂))
    (h₁ : ∀ q ∈ l₁, ¬(q.start ≤ now ∧ now ≤ q.stop))
    (hs : p.start ≤ now) (he : now ≤ p.stop) :
    get_current_program st ch none now =
      (some p.title, some p.desc, some p.start, some p.stop) := by
  have hb : ∀ q ∈ l₁, (decide (q.start ≤ now) && decide (now ≤ q.stop)) = false := by
    intro q hq
    rcases not_and_or.mp (h₁ q hq) with h | h <;> simp [h]
  unfold get_current_program
  simp only [hl]
  rw [find?_append_of_none hb, List.find?_cons_of_pos]
  simp [hs, he]

/-- C1: `get_current_program` queried at the shared boundary instant of two
back-to-back programmes does NOT return the second programme: the scan uses
the closed containment `prog.start <= now <= prog.stop`, so the boundary
instant matches the first programme at its own stop instant, and with the
programmes stored in chronological order the first one is returned.  The
concrete input has programmes `[10,11]` titled `A` and `[11,12]` titled `B`
queried at `11`; the result is `A`'s tuple, not `B`'s, refuting the
claimed closed-open `[start, stop)` behaviour. -/
theorem gcp_boundary_cex :
    get_current_program
        ⟨[], [("c", [⟨"c", 10, 11, "A", ""⟩, ⟨"c", 11, 12, "B", ""⟩])], []⟩
        "c" none 11
      = (some "A", some "", some (10 : Int), some (11 : Int)) ∧
    ((some "A", some "", some (10 : Int), some (11 : Int)) :
        Option String × Option String × Option Int × Option Int)
      ≠ (some "B", some "", some (11 : Int), some (12 : Int)) := by
  constructor
  · decide
  · decide

/-- C1 (amended): at the shared boundary instant of two back-to-back
programmes, both closed intervals `[start, stop]` contain the instant, and
the scan returns the programme that appears FIRST in the channel's list
(provided nothing before it matched) — not the second one as the claim
states. -/
theorem gcp_boundary_first_in_list (st : EPGManager) (ch : String) (now : Int)
    (l₁ l₂ : List Program) (p₁ p₂ : Program)
    (hl : alLookup ch st.programs = some (l₁ ++ p₁ :: p₂ :: l₂))
    (h₁ : ∀ q ∈ l₁, ¬(q.start ≤ now ∧ now ≤ q.stop))
    (hstop : p₁.stop = now) (_hstart : p₂.start = now) (hs : p₁.start ≤ now) :
    get_current_program st ch none now =
      (some p₁.title, some p₁.desc, some p₁.start, some p₁.stop) :=
  get_current_program_scan st ch now l₁ (p₂ :: l₂) p₁ hl h₁ hs (le_of_eq hstop.symm)

/-- Witness for `gcp_boundary_first_in_list` at the concrete boundary
input. -/
theorem gcp_boundary_first_in_list_inst :
    get_current_program
        ⟨[], [("c", [⟨"c", 10, 11, "A", ""⟩, ⟨"c", 11, 12, "B", ""⟩])], []⟩
        "c" none 11
      = (some "A", some "", some (10 : Int), some (11 : Int)) :=
  gcp_boundary_first_in_list
    ⟨[], [("c", [⟨"c", 10, 11, "A", ""⟩, ⟨"c", 11, 12, "B", ""⟩])], []⟩
    "c" 11 [] [] ⟨"c", 10, 11, "A", ""⟩ ⟨"c", 11, 12, "B", ""⟩
    rfl (by simp) rfl rfl (by decide)

/-- C2: with two overlapping programmes `A = [540, 600]` and
`B = [570, 630]` stored in the order `[A, B]` and queried at `585`, the
result is `A`'s tuple — the FIRST programme in list order — even though `B`
has the later start; this refutes the claimed latest-start tie-break. -/
theorem gcp_overlap_cex :
    get_current_program
        ⟨[], [("c", [⟨"c", 540, 600, "A", ""⟩, ⟨"c", 570, 630, "B", ""⟩])], []⟩
        "c" none 585
      = (some "A", some "", some (540 : Int), some (600 : Int)) ∧
    ((some "A", some "", some (540 : Int), some (600 : Int)) :
        Option String × Option String × Option Int × Option Int)
      ≠ (some "B", some "", some (570 : Int), some (630 : Int)) := by
  constructor
  · decide
  · decide

/-- C2 (amended): when several programmes' closed intervals contain `now`,
`get_current_program` returns the first matching programme in the order the
channel's list stores them; the start instants of the candidates play no
role in the choice. -/
theorem gcp_overlap_first_in_list (st : EPGManager) (ch : String) (now : Int)
    (l₁ l₂ : List Program) (p : Program)
    (hl : alLookup ch st.programs = some (l₁ ++ p :: l₂))
    (h₁ : ∀ q ∈ l₁, ¬(q.start ≤ now ∧ now ≤ q.stop))
    (hs : p.start ≤ now) (he : now ≤ p.stop) :
    get_current_program st ch none now =
      (some p.title, some p.desc, some p.start, some p.stop) :=
  get_current_program_scan st ch now l₁ l₂ p hl h₁ hs he

/-- Witness for `gcp_overlap_first_in_list` at the concrete overlap
input; the list tail contains the later-starting overlapping programme. -/
theorem gcp_overlap_first_in_list_inst :
    get_current_program
        ⟨[], [("c", [⟨"c", 540, 600, "A", ""⟩, ⟨"c", 570, 630, "B", ""⟩])], []⟩
        "c" none 585
      = (some "A", some "", some (540 : Int), some (600 : Int)) :=
  gcp_overlap_first_in_list
    ⟨[], [("c", [⟨"c", 540, 600, "A", ""⟩, ⟨"c", 570, 630, "B", ""⟩])], []⟩
    "c" 585 [] [⟨"c", 570, 630, "B", ""⟩] ⟨"c", 540, 600, "A", ""⟩
    rfl (by simp) (by decide) (by decide)

/-- C9: a channel that IS known to the merged index (it has a `ChannelInfo`
in `channels`) but has no entry in the `programs` map receives the
all-absent result from `get_current_program`, not the sentinel — so the
all-absent result is not reserved for unknown channels as the claim
states. -/
theorem gcp_known_channel_null_cex :
    alLookup "c" (⟨[("c", ⟨"c", "Channel C", none, "CHANNELC"⟩)], [], []⟩ :
        EPGManager).channels
      = some ⟨"c", "Channel C", none, "CHANNELC"⟩ ∧
    get_current_program ⟨[("c", ⟨"c", "Channel C", none, "CHANNELC"⟩)], [], []⟩
        "c" none 0
      = (none, none, none, none) := by
  constructor
  · decide
  · decide

/-- C9 (amended): `get_current_program` distinguishes the two outcomes by
the `programs` map alone, never consulting `channels`: a channel with a
programs entry none of whose closed intervals contains `now` gets the
sentinel `("No Info Available", "", none, none)`, while a channel with no
programs entry gets the all-absent result even when its metadata is present
in `channels`. -/
theorem gcp_sentinel_vs_absent (st : EPGManager) (ch : String) (now : Int) :
    (∀ l, alLookup ch st.programs = some l →
      (∀ p ∈ l, ¬(p.start ≤ now ∧ now ≤ p.stop)) →
      get_current_program st ch none now = (some "No Info Available", some "", none, none)) ∧
    (alLookup ch st.programs = none →
      get_current_program st ch none now = (none, none, none, none)) := by
  constructor
  · intro l hl hnone
    have hb : l.find? (fun p => decide (p.start ≤ now) && decide (now ≤ p.stop)) = none := by
      rw [List.find?_eq_none]
      intro p hp
      rcases not_and_or.mp (hnone p hp) with h | h <;> simp [h]
    unfold get_current_program
    simp only [hl, hb]
  · intro hl
    unfold get_current_program
    simp only [hl]

/-- Witness for `gcp_sentinel_vs_absent`: a channel whose only programme
interval `[5, 6]` does not contain `now = 100` gets the sentinel. -/
theorem gcp_sentinel_vs_absent_inst :
    get_current_program (⟨[], [("c", [⟨"c", 5, 6, "A", ""⟩])], []⟩ : EPGManager)
        "c" none 100
      = (some "No Info Available", some "", none, none) :=
  (gcp_sentinel_vs_absent ⟨[], [("c", [⟨"c", 5, 6, "A", ""⟩])], []⟩ "c" 100).1
    [⟨"c", 5, 6, "A", ""⟩] rfl (by decide)

/-- C10: `normalize_name` is idempotent: its output consists only of the
characters `A-Z0-9`, and on such strings the uppercase/strip step, the
country-prefix substitution (which needs a dash), the quality-suffix
substitution (which needs whitespace) and the character filter are all the
identity. -/
theorem normalize_name_idempotent (s : String) :
    normalize_name (normalize_name s) = normalize_name s :=
  congrArg String.mk (normalizeList_idem s.data)

/-! ### The window invariant the parser actually enforces (C3) -/

theorem alAppendList_progsOK {now : Int} {m : List (String × List Program)}
    {k : String} {vs : List Program}
    (hm : progsMapOK now m) (hvs : ∀ p ∈ vs, progWindowOK now p) :
    progsMapOK now (alAppendList k vs m) := by
  induction m with
  | nil =>
    intro kv hkv
    simp only [alAppendList, List.mem_singleton] at hkv
    subst hkv
    exact hvs
  | cons hd tl ih =>
    obtain ⟨k', v'⟩ := hd
    intro kv hkv
    rw [alAppendList] at hkv
    by_cases h : k' = k
    · rw [if_pos h] at hkv
      rcases List.mem_cons.mp hkv with h2 | h2
      · subst h2
        intro p hp
        rcases List.mem_append.mp hp with h3 | h3
        · exact hm (k', v') (List.mem_cons_self _ _) p h3
        · exact hvs p h3
      · exact hm kv (List.mem_cons_of_mem _ h2)
    · rw [if_neg h] at hkv
      rcases List.mem_cons.mp hkv with h2 | h2
      · subst h2
        exact hm (k', v') (List.mem_cons_self _ _)
      · exact ih (fun kv2 hkv2 => hm kv2 (List.mem_cons_of_mem _ hkv2)) kv h2

theorem parseProgrammeStep_progsOK {now : Int} {programs : List (String × List Program)}
    (hm : progsMapOK now programs) (ch : Option String) (s e : Option Int)
    (t d : Option String) :
    progsMapOK now (parseProgrammeStep now programs ch s e t d) := by
  unfold parseProgrammeStep
  split
  · split
    · rename_i startDt stopDt
      split
      · exact hm
      · split
        · exact hm
        · rename_i hstop hstart
          refine alAppendList_progsOK hm ?_
          intro p hp
          simp only [List.mem_singleton] at hp
          subst hp
          exact ⟨not_lt.mp hstop, not_lt.mp hstart⟩
    · exact hm
  · exact hm

theorem parseFold_progsOK {name : String} {now : Int} :
    ∀ (events : List XmlNode)
      (acc : List (String × ChannelInfo) × List (String × List Program)),
      progsMapOK now acc.2 →
      progsMapOK now (events.foldl (parseStep name now) acc).2 := by
  intro events
  induction events with
  | nil => exact fun acc h => h
  | cons e rest ih =>
    intro acc hacc
    rw [List.foldl_cons]
    refine ih _ ?_
    cases e with
    | channel id dn icon => exact hacc
    | programme ch s e' t d => exact parseProgrammeStep_progsOK hacc ch s e' t d

theorem parse_progsOK (stream : ParseStream) (name : String) (now : Int) :
    progsMapOK now (parse stream name now).2 :=
  parseFold_progsOK stream.events ([], []) (by intro kv hkv; simp at hkv)

theorem extendPrograms_progsOK {now : Int} {new : List (String × List Program)} :
    ∀ {m : List (String × List Program)}, progsMapOK now m → progsMapOK now new →
      progsMapOK now (extendPrograms m new) := by
  induction new with
  | nil => exact fun hm _ => hm
  | cons kv rest ih =>
    intro m hm hnew
    unfold extendPrograms
    rw [List.foldl_cons]
    exact ih
      (alAppendList_progsOK hm (hnew kv (List.mem_cons_self _ _)))
      (fun kv2 hkv2 => hnew kv2 (List.mem_cons_of_mem _ hkv2))

theorem loadSource_progsOK {now : Int} {st : EPGManager} (name : String)
    (content : Option ParseStream) (hst : progsMapOK now st.programs) :
    progsMapOK now (loadSource st name content now).1.programs := by
  cases content with
  | none => exact hst
  | some stream =>
    exact extendPrograms_progsOK hst (parse_progsOK stream name now)

theorem loadFold_progsOK {now : Int} :
    ∀ (sources : List SourceInput) (acc : EPGManager × Bool),
      progsMapOK now acc.1.programs →
      progsMapOK now (sources.foldl (loadStep now) acc).1.programs := by
  intro sources
  induction sources with
  | nil => exact fun acc h => h
  | cons src rest ih =>
    intro acc hacc
    rw [List.foldl_cons]
    refine ih _ ?_
    unfold loadStep
    by_cases h : src.enabled
    · rw [if_pos h]
      exact loadSource_progsOK src.name src.content hacc
    · rw [if_neg h]
      exact hacc

/-- C3 (amended): what the parse-time filters actually guarantee for every
programme record reaching the merged index after `load_all` from a fresh
manager: `now ≤ stop` (not already over) and
`start ≤ now + PROGRAM_WINDOW_HOURS` (inside the forward window).  No
`start < stop` comparison is made anywhere on that path, so records with
`start ≥ stop` can reach the index (see the counterexample). -/
theorem index_window_invariant (sources : List SourceInput) (now : Int) :
    progsMapOK now (loadAll emptyManager sources now).1.programs :=
  loadFold_progsOK sources (emptyManager, false) (by intro kv hkv; simp [emptyManager] at hkv)

/-- C3 counterexample: a programme element whose parsed start equals its
parsed stop (both `5`, with `now = 0`) passes every filter of
`EPGParser.parse` and is present in the merged index after `load_all`;
the record violates `start < stop`. -/
theorem index_start_lt_stop_cex :
    (loadAll emptyManager
        [⟨"s", true, some ⟨[.programme (some "c") (some 5) (some 5) none none], false⟩⟩]
        0).1.programs
      = [("c", [⟨"c", 5, 5, "N/A", ""⟩])] ∧
    ¬((⟨"c", 5, 5, "N/A", ""⟩ : Program).start < (⟨"c", 5, 5, "N/A", ""⟩ : Program).stop) := by
  constructor
  · decide
  · decide

/-! ### Dict-update lemmas (C4) -/

theorem alLookup_alSet_self {κ α : Type} [DecidableEq κ] (k : κ) (v : α)
    (m : List (κ × α)) : alLookup k (alSet k v m) = some v := by
  induction m with
  | nil => simp [alSet, alLookup]
  | cons hd tl ih =>
    obtain ⟨k', v'⟩ := hd
    rw [alSet]
    by_cases h : k' = k
    · rw [if_pos h, alLookup, if_pos h]
    · rw [if_neg h, alLookup, if_neg h]
      exact ih

theorem alLookup_alSet_ne {κ α : Type} [DecidableEq κ] {k k' : κ} (h : k' ≠ k)
    (v : α) (m : List (κ × α)) : alLookup k (alSet k' v m) = alLookup k m := by
  induction m with
  | nil => simp [alSet, alLookup, h]
  | cons hd tl ih =>
    obtain ⟨k'', v''⟩ := hd
    rw [alSet]
    by_cases h2 : k'' = k'
    · rw [if_pos h2, alLookup, alLookup, if_neg (h2 ▸ h), if_neg (h2 ▸ h)]
    · rw [if_neg h2, alLookup, alLookup]
      by_cases h3 : k'' = k
      · rw [if_pos h3, if_pos h3]
      · rw [if_neg h3, if_neg h3]
        exact ih

theorem alLookup_eq_none_of_not_mem {κ α : Type} [DecidableEq κ] {k : κ}
    {m : List (κ × α)} (h : k ∉ m.map Prod.fst) : alLookup k m = none := by
  induction m with
  | nil => rfl
  | cons hd tl ih =>
    obtain ⟨k', v'⟩ := hd
    rw [alLookup]
    simp only [List.map_cons, List.mem_cons] at h
    rw [if_neg (fun he => h (Or.inl he.symm))]
    exact ih fun he => h (Or.inr he)

theorem alLookup_alUpdate_of_none {κ α : Type} [DecidableEq κ] {k : κ} :
    ∀ {new m : List (κ × α)}, alLookup k new = none →
      alLookup k (alUpdate m new) = alLookup k m := by
  intro new
  induction new with
  | nil => exact fun _ => rfl
  | cons hd tl ih =>
    obtain ⟨k₁, v₁⟩ := hd
    intro m hnone
    rw [alLookup] at hnone
    by_cases h : k₁ = k
    · rw [if_pos h] at hnone
      exact absurd hnone (by simp)
    · rw [if_neg h] at hnone
      unfold alUpdate
      rw [List.foldl_cons]
      have := ih (m := alSet k₁ v₁ m) hnone
      unfold alUpdate at this
      rw [this, alLookup_alSet_ne h v₁ m]

theorem alLookup_alUpdate_of_some {κ α : Type} [DecidableEq κ] {k : κ} {v : α} :
    ∀ {new m : List (κ × α)}, keysNodup new → alLookup k new = some v →
      alLookup k (alUpdate m new) = some v := by
  intro new
  induction new with
  | nil => intro m _ h; simp [alLookup] at h
  | cons hd tl ih =>
    obtain ⟨k₁, v₁⟩ := hd
    intro m hnodup hsome
    have hnodup' : keysNodup tl := (List.nodup_cons.mp hnodup).2
    rw [alLookup] at hsome
    unfold alUpdate
    rw [List.foldl_cons]
    by_cases h : k₁ = k
    · rw [if_pos h] at hsome
      have htl : alLookup k tl = none := by
        refine alLookup_eq_none_of_not_mem ?_
        have := (List.nodup_cons.mp hnodup).1
        exact fun hmem => this (h ▸ hmem)
      have := alLookup_alUpdate_of_none (m := alSet k₁ v₁ m) htl
      unfold alUpdate at this
      rw [this, h, alLookup_alSet_self]
      exact hsome
    · rw [if_neg h] at hsome
      have := ih (m := alSet k₁ v₁ m) hnodup' hsome
      unfold alUpdate at this
      exact this

theorem mem_keys_alSet {κ α : Type} [DecidableEq κ] {x k : κ} (v : α) :
    ∀ (m : List (κ × α)), x ∈ (alSet k v m).map Prod.fst →
      x ∈ m.map Prod.fst ∨ x = k := by
  intro m
  induction m with
  | nil => intro h; simp [alSet] at h; exact Or.inr h
  | cons hd tl ih =>
    obtain ⟨k', v'⟩ := hd
    intro h
    rw [alSet] at h
    by_cases h2 : k' = k
    · rw [if_pos h2] at h
      simp only [List.map_cons, List.mem_cons] at h ⊢
      rcases h with h | h
      · exact Or.inl (Or.inl h)
      · exact Or.inl (Or.inr h)
    · rw [if_neg h2] at h
      simp only [List.map_cons, List.mem_cons] at h ⊢
      rcases h with h | h
      · exact Or.inl (Or.inl h)
      · rcases ih h with h3 | h3
        · exact Or.inl (Or.inr h3)
        · exact Or.inr h3

theorem keysNodup_alSet {κ α : Type} [DecidableEq κ] (k : κ) (v : α) :
    ∀ {m : List (κ × α)}, keysNodup m → keysNodup (alSet k v m) := by
  intro m
  induction m with
  | nil => intro _; simp [alSet, keysNodup]
  | cons hd tl ih =>
    obtain ⟨k', v'⟩ := hd
    intro hnodup
    have h1 := (List.nodup_cons.mp hnodup).1
    have h2 := (List.nodup_cons.mp hnodup).2
    rw [alSet]
    by_cases h : k' = k
    · rw [if_pos h]
      exact hnodup
    · rw [if_neg h]
      refine List.nodup_cons.mpr ⟨?_, ih h2⟩
      intro hmem
      rcases mem_keys_alSet v tl hmem with h3 | h3
      · exact h1 h3
      · exact h (h3 ▸ rfl)

theorem keysNodup_parseChannelStep {name : String}
    {channels : List (String × ChannelInfo)} (hnodup : keysNodup channels)
    (id dn icon : Option String) :
    keysNodup (parseChannelStep name channels id dn icon) := by
  unfold parseChannelStep
  split
  · dsimp only
    split
    · exact hnodup
    · exact keysNodup_alSet _ _ hnodup
  · exact hnodup

theorem keysNodup_parseFold {name : String} {now : Int} :
    ∀ (events : List XmlNode)
      (acc : List (String × ChannelInfo) × List (String × List Program)),
      keysNodup acc.1 → keysNodup (events.foldl (parseStep name now) acc).1 := by
  intro events
  induction events with
  | nil => exact fun acc h => h
  | cons e rest ih =>
    intro acc hacc
    rw [List.foldl_cons]
    refine ih _ ?_
    cases e with
    | channel id dn icon => exact keysNodup_parseChannelStep hacc id dn icon
    | programme ch s e' t d => exact hacc

theorem keysNodup_parse (stream : ParseStream) (name : String) (now : Int) :
    keysNodup (parse stream name now).1 :=
  keysNodup_parseFold stream.events ([], []) (by simp [keysNodup])

/-- C4 (amended): when two sources both define a channel with the same id,
the merged index keeps the metadata of the LAST source processed that
defines it: `_load_source` merges with `dict.update`, so the later
source's `ChannelInfo` replaces the earlier one's. -/
theorem channels_last_writer_wins (st : EPGManager) (n₁ n₂ : String)
    (s₁ s₂ : ParseStream) (now : Int) (k : String) (v : ChannelInfo)
    (_h₁ : ∃ v₁, alLookup k (parse s₁ n₁ now).1 = some v₁)
    (h₂ : alLookup k (parse s₂ n₂ now).1 = some v) :
    alLookup k (loadAll st [⟨n₁, true, some s₁⟩, ⟨n₂, true, some s₂⟩] now).1.channels
      = some v := by
  unfold loadAll
  simp only [List.foldl_cons, List.foldl_nil]
  unfold loadStep loadSource
  simp only [if_true]
  exact alLookup_alUpdate_of_some (keysNodup_parse s₂ n₂ now) h₂

/-- Witness for `channels_last_writer_wins`: both sources define id `x`,
the second with display name `Second`; the merged info is the second's. -/
theorem channels_last_writer_wins_inst :
    alLookup "x"
      (loadAll emptyManager
          [⟨"s1", true, some ⟨[.channel (some "x") (some "First") none], false⟩⟩,
           ⟨"s2", true, some ⟨[.channel (some "x") (some "Second") none], false⟩⟩]
          0).1.channels
      = some ⟨"x", "Second", none, "SECOND"⟩ :=
  channels_last_writer_wins emptyManager "s1" "s2"
    ⟨[.channel (some "x") (some "First") none], false⟩
    ⟨[.channel (some "x") (some "Second") none], false⟩
    0 "x" ⟨"x", "Second", none, "SECOND"⟩
    ⟨⟨"x", "First", none, "FIRST"⟩, by decide⟩ (by decide)

/-- C4 counterexample: two sources define channel `x` — the first names it
`First`, the second `Second`.  After `load_all` the merged `ChannelInfo`
for `x` is the SECOND source's, which differs from the first's, refuting
first-writer-wins. -/
theorem channels_first_writer_cex :
    alLookup "x" (parse ⟨[.channel (some "x") (some "First") none], false⟩ "s1" 0).1
      = some ⟨"x", "First", none, "FIRST"⟩ ∧
    alLookup "x"
      (loadAll emptyManager
          [⟨"s1", true, some ⟨[.channel (some "x") (some "First") none], false⟩⟩,
           ⟨"s2", true, some ⟨[.channel (some "x") (some "Second") none], false⟩⟩]
          0).1.channels
      = some ⟨"x", "Second", none, "SECOND"⟩ ∧
    (⟨"x", "Second", none, "SECOND"⟩ : ChannelInfo) ≠ ⟨"x", "First", none, "FIRST"⟩ := by
  refine ⟨?_, ?_, ?_⟩
  · decide
  · decide
  · decide

/-! ### Source isolation (C5) -/

theorem loadFold_fst_flag_indep (now : Int) :
    ∀ (sources : List SourceInput) (A : EPGManager × Bool) (b : Bool),
      (sources.foldl (loadStep now) (A.1, b)).1 = (sources.foldl (loadStep now) A).1 := by
  intro sources
  induction sources with
  | nil => intro A b; rfl
  | cons src rest ih =>
    intro A b
    simp only [List.foldl_cons]
    by_cases h : src.enabled
    · have h1 : loadStep now (A.1, b) src
          = ((loadSource A.1 src.name src.content now).1,
             b || (loadSource A.1 src.name src.content now).2) := by
        unfold loadStep
        rw [if_pos h]
      have h2 : (loadStep now A src).1 = (loadSource A.1 src.name src.content now).1 := by
        unfold loadStep
        rw [if_pos h]
      rw [h1, ← h2]
      exact ih (loadStep now A src) _
    · have h1 : loadStep now (A.1, b) src = (A.1, b) := by
        unfold loadStep
        rw [if_neg h]
      have h2 : loadStep now A src = A := by
        unfold loadStep
        rw [if_neg h]
      rw [h1, h2]
      exact ih A b

/-- C5: a source whose document fails with a malformed-XML error at the
document root (the iterator raises before yielding any element) contributes
zero channel records and zero program records — `parse` returns the empty
maps, the exception never escapes `parse` (it is total here) — and
inserting such a source anywhere in the source list leaves the merged index
produced by `load_all` exactly as if the source were absent, so the other
sources still load. -/
theorem parse_root_error_contributes_nothing (name : String) (now : Int)
    (st : EPGManager) (pre post : List SourceInput) :
    parse ⟨[], true⟩ name now = ([], []) ∧
    (loadAll st (pre ++ ⟨name, true, some ⟨[], true⟩⟩ :: post) now).1
      = (loadAll st (pre ++ post) now).1 := by
  refine ⟨rfl, ?_⟩
  have hbad : ∀ A : EPGManager × Bool,
      loadStep now A ⟨name, true, some ⟨[], true⟩⟩ = (A.1, A.2 || true) := by
    intro A
    rfl
  unfold loadAll
  simp only [List.foldl_append, List.foldl_cons, hbad]
  rw [loadFold_fst_flag_indep now post (List.foldl (loadStep now) (st, false) pre) _]

/-! ### Cache validity (C6) -/

/-- C6: `is_valid` is true iff the metadata file and the body file both
exist, the metadata parses to a timestamp `t`, and `now - t < ttl`; every
read/parse failure on the metadata (the `none` timestamp) yields false.
In particular with `ttl_hours = 12` an entry written at `T` is valid at
`T + 11h59m` and invalid at `T + 12h01m`. -/
theorem is_valid_iff_fresh (v : CacheView) (now ttl : Int) :
    (is_valid v now ttl = true ↔
      v.metaExists = true ∧ v.cacheExists = true ∧
        ∃ t, v.metaTimestamp = some t ∧ now - t < ttl) ∧
    (∀ T : Int,
      is_valid ⟨true, true, some T⟩ (T + (11 * 3600 + 59 * 60)) (ttlOfHours 12) = true ∧
      is_valid ⟨true, true, some T⟩ (T + (12 * 3600 + 60)) (ttlOfHours 12) = false) := by
  constructor
  · obtain ⟨me, ce, ts⟩ := v
    cases me <;> cases ce <;> cases ts <;> simp [is_valid]
  · intro T
    constructor
    · simp only [is_valid, ttlOfHours, Bool.not_true, Bool.or_self, Bool.false_eq_true,
        if_false, decide_eq_true_eq]
      omega
    · simp only [is_valid, ttlOfHours, Bool.not_true, Bool.or_self, Bool.false_eq_true,
        if_false, decide_eq_false_iff_not]
      omega

/-! ### The code-point lexicographic order used by `sorted` -/

theorem listLtb_asymm : ∀ {a b : List Char}, listLtb a b = true → listLtb b a = false := by
  intro a
  induction a with
  | nil =>
    intro b h
    cases b with
    | nil => simp [listLtb] at h
    | cons y bs => rfl
  | cons x as ih =>
    intro b h
    cases b with
    | nil => simp [listLtb] at h
    | cons y bs =>
      rw [listLtb] at h
      rw [listLtb]
      by_cases h1 : x < y
      · rw [if_neg (lt_asymm h1), if_pos h1]
      · rw [if_neg h1] at h
        by_cases h2 : y < x
        · rw [if_pos h2] at h
          exact absurd h (by simp)
        · rw [if_neg h2] at h
          rw [if_neg h2, if_neg h1]
          exact ih h

theorem listLtb_trans : ∀ {a b c : List Char},
    listLtb a b = true → listLtb b c = true → listLtb a c = true := by
  intro a
  induction a with
  | nil =>
    intro b c h1 h2
    cases b with
    | nil => simp [listLtb] at h1
    | cons y bs =>
      cases c with
      | nil => simp [listLtb] at h2
      | cons z cs => rfl
  | cons x as ih =>
    intro b c h1 h2
    cases b with
    | nil => simp [listLtb] at h1
    | cons y bs =>
      cases c with
      | nil => simp [listLtb] at h2
      | cons z cs =>
        rw [listLtb] at h1 h2 ⊢
        by_cases hxy : x < y
        · by_cases hyz : y < z
          · rw [if_pos (lt_trans hxy hyz)]
          · rw [if_neg hyz] at h2
            by_cases hzy : z < y
            · rw [if_pos hzy] at h2
              exact absurd h2 (by simp)
            · have : y = z := le_antisymm (not_lt.mp hzy) (not_lt.mp hyz)
              rw [if_pos (this ▸ hxy)]
        · rw [if_neg hxy] at h1
          by_cases hyx : y < x
          · rw [if_pos hyx] at h1
            exact absurd h1 (by simp)
          · rw [if_neg hyx] at h1
            have hxy' : x = y := le_antisymm (not_lt.mp hyx) (not_lt.mp hxy)
            by_cases hyz : y < z
            · rw [if_pos (hxy' ▸ hyz)]
            · rw [if_neg hyz] at h2
              by_cases hzy : z < y
              · rw [if_pos hzy] at h2
                exact absurd h2 (by simp)
              · rw [if_neg hzy] at h2
                have hyz' : y = z := le_antisymm (not_lt.mp hzy) (not_lt.mp hyz)
                have hxz : x = z := hxy'.trans hyz'
                rw [hxz, if_neg (lt_irrefl z), if_neg (lt_irrefl z)]
                exact ih h1 h2

theorem listLtb_conn : ∀ {a b : List Char},
    listLtb a b = false → listLtb b a = false → a = b := by
  intro a
  induction a with
  | nil =>
    intro b h1 _
    cases b with
    | nil => rfl
    | cons y bs => simp [listLtb] at h1
  | cons x as ih =>
    intro b h1 h2
    cases b with
    | nil => simp [listLtb] at h2
    | cons y bs =>
      rw [listLtb] at h1 h2
      by_cases hxy : x < y
      · rw [if_pos hxy] at h1
        exact absurd h1 (by simp)
      · by_cases hyx : y < x
        · rw [if_pos hyx] at h2
          exact absurd h2 (by simp)
        · rw [if_neg hxy, if_neg hyx] at h1
          rw [if_neg hyx, if_neg hxy] at h2
          have hx : x = y := le_antisymm (not_lt.mp hyx) (not_lt.mp hxy)
          rw [hx, ih h1 h2]

theorem strEqOfDataEq {a b : String} (h : a.data = b.data) : a = b := by
  cases a
  cases b
  exact congrArg String.mk h

theorem strLeb_total (a b : String) : strLeb a b = true ∨ strLeb b a = true := by
  unfold strLeb strLtb
  by_cases h : listLtb b.data a.data = true
  · right
    rw [listLtb_asymm h]
    rfl
  · left
    rw [Bool.not_eq_true] at h
    rw [h]
    rfl

theorem strLeb_trans {a b c : String}
    (h1 : strLeb a b = true) (h2 : strLeb b c = true) : strLeb a c = true := by
  unfold strLeb strLtb at h1 h2 ⊢
  rw [Bool.not_eq_true'] at h1 h2 ⊢
  by_cases hca : listLtb c.data a.data = true
  · by_cases hbc : listLtb b.data c.data = true
    · rw [listLtb_trans hbc hca] at h1
      exact absurd h1 (by simp)
    · rw [Bool.not_eq_true] at hbc
      have : b.data = c.data := listLtb_conn hbc h2
      rw [this] at h1
      rw [h1] at hca
      exact absurd hca (by simp)
  · exact Bool.not_eq_true _ ▸ hca

theorem chanPairLe_total (a b : String × MElem) : chanPairLe a b ∨ chanPairLe b a :=
  strLeb_total a.1 b.1

theorem chanPairLe_trans {a b c : String × MElem}
    (h1 : chanPairLe a b) (h2 : chanPairLe b c) : chanPairLe a c :=
  strLeb_trans h1 h2

theorem keyLe_total (a b : String × String) : keyLe a b ∨ keyLe b a := by
  unfold keyLe strLtb
  by_cases h1 : listLtb a.1.data b.1.data = true
  · exact Or.inl (Or.inl h1)
  · by_cases h2 : listLtb b.1.data a.1.data = true
    · exact Or.inr (Or.inl h2)
    · have he : a.1 = b.1 :=
        strEqOfDataEq (listLtb_conn (Bool.not_eq_true _ ▸ h1) (Bool.not_eq_true _ ▸ h2))
      rcases strLeb_total a.2 b.2 with h | h
      · exact Or.inl (Or.inr ⟨he, h⟩)
      · exact Or.inr (Or.inr ⟨he.symm, h⟩)

theorem strLtb_trans {a b c : String}
    (h1 : strLtb a b = true) (h2 : strLtb b c = true) : strLtb a c = true :=
  listLtb_trans h1 h2

theorem keyLe_trans {a b c : String × String}
    (h1 : keyLe a b) (h2 : keyLe b c) : keyLe a c := by
  rcases h1 with h1 | ⟨h1e, h1le⟩ <;> rcases h2 with h2 | ⟨h2e, h2le⟩
  · exact Or.inl (strLtb_trans h1 h2)
  · exact Or.inl (h2e ▸ h1)
  · exact Or.inl (h1e ▸ h2)
  · exact Or.inr ⟨h1e.trans h2e, strLeb_trans h1le h2le⟩

theorem progPairLe_total (a b : (String × String) × MElem) : progPairLe a b ∨ progPairLe b a :=
  keyLe_total a.1 b.1

theorem progPairLe_trans {a b c : (String × String) × MElem}
    (h1 : progPairLe a b) (h2 : progPairLe b c) : progPairLe a c :=
  keyLe_trans h1 h2

/-! ### Sortedness of `insertionSort` (with explicit order hypotheses) -/

theorem pairwise_orderedInsert {α : Type} (r : α → α → Prop) [DecidableRel r]
    (htot : ∀ a b, r a b ∨ r b a) (htr : ∀ a b c, r a b → r b c → r a c) :
    ∀ (a : α) (l : List α), l.Pairwise r → (l.orderedInsert r a).Pairwise r := by
  intro a l
  induction l with
  | nil => exact fun _ => List.pairwise_singleton r a
  | cons b t ih =>
    intro hp
    rw [List.orderedInsert]
    have hb := List.pairwise_cons.mp hp
    by_cases h : r a b
    · rw [if_pos h]
      refine List.pairwise_cons.mpr ⟨?_, hp⟩
      intro x hx
      rcases List.mem_cons.mp hx with hx | hx
      · exact hx ▸ h
      · exact htr _ _ _ h (hb.1 x hx)
    · rw [if_neg h]
      refine List.pairwise_cons.mpr ⟨?_, ih hb.2⟩
      intro x hx
      rcases (List.mem_orderedInsert r).mp hx with hx | hx
      · rcases htot a b with h2 | h2
        · exact absurd h2 h
        · exact hx ▸ h2
      · exact hb.1 x hx

theorem pairwise_insertionSort {α : Type} (r : α → α → Prop) [DecidableRel r]
    (htot : ∀ a b, r a b ∨ r b a) (htr : ∀ a b c, r a b → r b c → r a c) :
    ∀ (l : List α), (l.insertionSort r).Pairwise r := by
  intro l
  induction l with
  | nil => exact List.Pairwise.nil
  | cons a t ih =>
    rw [List.insertionSort]
    exact pairwise_orderedInsert r htot htr a _ ih

/-! ### First-writer-wins dict lemmas (C7) -/

theorem not_mem_keys_of_alLookup_none {κ α : Type} [DecidableEq κ] {k : κ} :
    ∀ {m : List (κ × α)}, alLookup k m = none → k ∉ m.map Prod.fst := by
  intro m
  induction m with
  | nil => intro _ h; simp at h
  | cons hd tl ih =>
    obtain ⟨k', v'⟩ := hd
    intro hnone hmem
    rw [alLookup] at hnone
    by_cases h : k' = k
    · rw [if_pos h] at hnone
      exact absurd hnone (by simp)
    · rw [if_neg h] at hnone
      simp only [List.map_cons, List.mem_cons] at hmem
      rcases hmem with hm | hm
      · exact h hm.symm
      · exact ih hnone hm

theorem alLookup_append_left_none {κ α : Type} [DecidableEq κ] {k : κ}
    {m : List (κ × α)} (h : alLookup k m = none) (l : List (κ × α)) :
    alLookup k (m ++ l) = alLookup k l := by
  induction m with
  | nil => rfl
  | cons hd tl ih =>
    obtain ⟨k', v'⟩ := hd
    rw [alLookup] at h
    rw [List.cons_append, alLookup]
    by_cases h2 : k' = k
    · rw [if_pos h2] at h
      exact absurd h (by simp)
    · rw [if_neg h2] at h ⊢
      exact ih h

theorem insertIfNew_of_some {κ α : Type} [DecidableEq κ] {k : κ} {v w : α}
    {m : List (κ × α)} (h : alLookup k m = some w) : insertIfNew k v m = m := by
  unfold insertIfNew
  rw [h]

theorem alLookup_insertIfNew_self_none {κ α : Type} [DecidableEq κ] {k : κ} (v : α)
    {m : List (κ × α)} (h : alLookup k m = none) :
    alLookup k (insertIfNew k v m) = some v := by
  unfold insertIfNew
  rw [h, alLookup_append_left_none h, alLookup, if_pos rfl]

theorem alLookup_insertIfNew_ne {κ α : Type} [DecidableEq κ] {k k' : κ} (h : k' ≠ k)
    (v : α) (m : List (κ × α)) :
    alLookup k (insertIfNew k' v m) = alLookup k m := by
  unfold insertIfNew
  cases h2 : alLookup k' m with
  | some w => rfl
  | none =>
    induction m with
    | nil => simp [alLookup, h]
    | cons hd tl ih =>
      obtain ⟨k'', v''⟩ := hd
      rw [alLookup] at h2
      rw [List.cons_append, alLookup, alLookup]
      by_cases h3 : k'' = k
      · rw [if_pos h3, if_pos h3]
      · rw [if_neg h3, if_neg h3]
        by_cases h4 : k'' = k'
        · rw [if_pos h4] at h2
          exact absurd h2 (by simp)
        · rw [if_neg h4] at h2
          exact ih h2

theorem keysNodup_insertIfNew {κ α : Type} [DecidableEq κ] (k : κ) (v : α)
    {m : List (κ × α)} (h : keysNodup m) : keysNodup (insertIfNew k v m) := by
  unfold insertIfNew
  cases h2 : alLookup k m with
  | some w => exact h
  | none =>
    unfold keysNodup
    rw [List.map_append]
    refine List.nodup_append.mpr ⟨h, List.nodup_singleton _, ?_⟩
    intro a ha hb
    simp only [List.map_cons, List.map_nil, List.mem_singleton] at hb
    exact not_mem_keys_of_alLookup_none h2 (hb ▸ ha)

theorem chanPairsWF_insertIfNew {id : String} {e : MElem}
    (he : isChannelElem e = true ∧ elemChanId e = id)
    {m : List (String × MElem)} (h : chanPairsWF m) :
    chanPairsWF (insertIfNew id e m) := by
  unfold insertIfNew
  cases h2 : alLookup id m with
  | some w => exact h
  | none =>
    intro kv hkv
    rcases List.mem_append.mp hkv with hm | hm
    · exact h kv hm
    · simp only [List.mem_singleton] at hm
      subst hm
      exact he

theorem progPairsWF_insertIfNew {k : String × String} {e : MElem}
    (he : progKeyOf e = some k)
    {m : List ((String × String) × MElem)} (h : progPairsWF m) :
    progPairsWF (insertIfNew k e m) := by
  unfold insertIfNew
  cases h2 : alLookup k m with
  | some w => exact h
  | none =>
    intro kv hkv
    rcases List.mem_append.mp hkv with hm | hm
    · exact h kv hm
    · simp only [List.mem_singleton] at hm
      subst hm
      exact he

/-! ### What each merge pass touches -/

theorem mergeChanStep_programmes (isCh : Bool) (acc : MergeState) (e : MElem) :
    (mergeChanStep isCh acc e).programmes = acc.programmes := by
  cases e with
  | channel id dns p =>
    simp only [mergeChanStep]
    split_ifs <;> rfl
  | programme ch start p => rfl

theorem mergeChanStep_loaded (isCh : Bool) (acc : MergeState) (e : MElem) :
    (mergeChanStep isCh acc e).loaded = acc.loaded := by
  cases e with
  | channel id dns p =>
    simp only [mergeChanStep]
    split_ifs <;> rfl
  | programme ch start p => rfl

theorem mergeProgStep_channels (isCh : Bool) (acc : MergeState) (e : MElem) :
    (mergeProgStep isCh acc e).channels = acc.channels := by
  cases e with
  | channel id dns p => rfl
  | programme ch start p =>
    simp only [mergeProgStep]
    split_ifs <;> rfl

theorem mergeProgStep_loaded (isCh : Bool) (acc : MergeState) (e : MElem) :
    (mergeProgStep isCh acc e).loaded = acc.loaded := by
  cases e with
  | channel id dns p => rfl
  | programme ch start p =>
    simp only [mergeProgStep]
    split_ifs <;> rfl

theorem mergeProgStep_allowedCh (isCh : Bool) (acc : MergeState) (e : MElem) :
    (mergeProgStep isCh acc e).allowedCh = acc.allowedCh := by
  cases e with
  | channel id dns p => rfl
  | programme ch start p =>
    simp only [mergeProgStep]
    split_ifs <;> rfl

theorem processChannels_programmes (isCh : Bool) :
    ∀ (elems : List MElem) (st : MergeState),
      (processChannels isCh st elems).programmes = st.programmes := by
  intro elems
  induction elems with
  | nil => intro st; rfl
  | cons e rest ih =>
    intro st
    unfold processChannels at ih ⊢
    rw [List.foldl_cons, ih, mergeChanStep_programmes]

theorem processChannels_loaded (isCh : Bool) :
    ∀ (elems : List MElem) (st : MergeState),
      (processChannels isCh st elems).loaded = st.loaded := by
  intro elems
  induction elems with
  | nil => intro st; rfl
  | cons e rest ih =>
    intro st
    unfold processChannels at ih ⊢
    rw [List.foldl_cons, ih, mergeChanStep_loaded]

theorem processProgrammes_channels (isCh : Bool) :
    ∀ (elems : List MElem) (st : MergeState),
      (processProgrammes isCh st elems).channels = st.channels := by
  intro elems
  induction elems with
  | nil => intro st; rfl
  | cons e rest ih =>
    intro st
    unfold processProgrammes at ih ⊢
    rw [List.foldl_cons, ih, mergeProgStep_channels]

theorem processProgrammes_loaded (isCh : Bool) :
    ∀ (elems : List MElem) (st : MergeState),
      (processProgrammes isCh st elems).loaded = st.loaded := by
  intro elems
  induction elems with
  | nil => intro st; rfl
  | cons e rest ih =>
    intro st
    unfold processProgrammes at ih ⊢
    rw [List.foldl_cons, ih, mergeProgStep_loaded]

/-! ### The Merger's structural invariant -/

theorem mergeInv_mergeChanStep (isCh : Bool) {acc : MergeState} (h : MergeInv acc)
    (e : MElem) : MergeInv (mergeChanStep isCh acc e) := by
  obtain ⟨hc, hp, hnc, hnp⟩ := h
  cases e with
  | programme ch start p => exact ⟨hc, hp, hnc, hnp⟩
  | channel id dns p =>
    simp only [mergeChanStep]
    split_ifs
    · exact ⟨hc, hp, hnc, hnp⟩
    · refine ⟨chanPairsWF_insertIfNew ⟨?_, ?_⟩ hc, hp, keysNodup_insertIfNew id _ hnc, hnp⟩ <;> rfl
    · exact ⟨hc, hp, hnc, hnp⟩
    · refine ⟨chanPairsWF_insertIfNew ⟨?_, ?_⟩ hc, hp, keysNodup_insertIfNew id _ hnc, hnp⟩ <;> rfl

theorem mergeInv_mergeProgStep (isCh : Bool) {acc : MergeState} (h : MergeInv acc)
    (e : MElem) : MergeInv (mergeProgStep isCh acc e) := by
  obtain ⟨hc, hp, hnc, hnp⟩ := h
  cases e with
  | channel id dns p => exact ⟨hc, hp, hnc, hnp⟩
  | programme ch start p =>
    simp only [mergeProgStep]
    split_ifs
    · exact ⟨hc, hp, hnc, hnp⟩
    · exact ⟨hc, hp, hnc, hnp⟩
    · refine ⟨hc, progPairsWF_insertIfNew ?_ hp, hnc, keysNodup_insertIfNew (ch, start) _ hnp⟩
      rfl

theorem mergeInv_processChannels (isCh : Bool) :
    ∀ (elems : List MElem) {st : MergeState}, MergeInv st →
      MergeInv (processChannels isCh st elems) := by
  intro elems
  induction elems with
  | nil => exact fun h => h
  | cons e rest ih =>
    intro st h
    unfold processChannels at ih ⊢
    rw [List.foldl_cons]
    exact ih (mergeInv_mergeChanStep isCh h e)

theorem mergeInv_processProgrammes (isCh : Bool) :
    ∀ (elems : List MElem) {st : MergeState}, MergeInv st →
      MergeInv (processProgrammes isCh st elems) := by
  intro elems
  induction elems with
  | nil => exact fun h => h
  | cons e rest ih =>
    intro st h
    unfold processProgrammes at ih ⊢
    rw [List.foldl_cons]
    exact ih (mergeInv_mergeProgStep isCh h e)

theorem mergeInv_processSource {st : MergeState} (h : MergeInv st)
    (name : String) (doc : Option (List MElem)) :
    MergeInv (processSource st name doc) := by
  cases doc with
  | none => exact h
  | some elems =>
    have h2 := mergeInv_processProgrammes (isChSource name) elems
      (mergeInv_processChannels (isChSource name) elems h)
    exact h2

theorem mergeInv_mergeState (sources : List (String × Option (List MElem))) :
    MergeInv (mergeState sources) := by
  have hstep : ∀ (srcs : List (String × Option (List MElem))) (st : MergeState),
      MergeInv st → MergeInv (srcs.foldl (fun acc s => processSource acc s.1 s.2) st) := by
    intro srcs
    induction srcs with
    | nil => exact fun st h => h
    | cons s rest ih =>
      intro st h
      rw [List.foldl_cons]
      exact ih _ (mergeInv_processSource h s.1 s.2)
  refine hstep sources initMergeState ?_
  refine ⟨?_, ?_, ?_, ?_⟩
  · intro kv h; simp [initMergeState] at h
  · intro kv h; simp [initMergeState] at h
  · simp [initMergeState, keysNodup]
  · simp [initMergeState, keysNodup]

/-! ### Programme dedup across sources (C7) -/

theorem lookup_processProgrammes_false {k : String × String}
    (hk1 : k.1 ≠ "") (hk2 : k.2 ≠ "") :
    ∀ (elems : List MElem) (st : MergeState),
      alLookup k (processProgrammes false st elems).programmes
        = (alLookup k st.programmes).orElse (fun _ => firstProgWithKey elems k) := by
  intro elems
  induction elems with
  | nil =>
    intro st
    show alLookup k st.programmes = _
    cases alLookup k st.programmes <;> rfl
  | cons e rest ih =>
    intro st
    have hstep : processProgrammes false st (e :: rest)
        = processProgrammes false (mergeProgStep false st e) rest := by
      unfold processProgrammes
      rw [List.foldl_cons]
    rw [hstep]
    cases e with
    | channel id dns p =>
      rw [ih]
      have hfirst : firstProgWithKey (MElem.channel id dns p :: rest) k
          = firstProgWithKey rest k := by
        unfold firstProgWithKey
        rw [List.find?_cons_of_neg]
        simp [progKeyOf]
      rw [hfirst]
      rfl
    | programme ch start p =>
      by_cases hskip : ch = "" ∨ start = ""
      · have hstep2 : mergeProgStep false st (.programme ch start p) = st := by
          simp only [mergeProgStep]
          rw [if_pos hskip]
        have hne : (ch, start) ≠ k := by
          rintro rfl
          rcases hskip with h | h
          · exact hk1 h
          · exact hk2 h
        have hfirst : firstProgWithKey (MElem.programme ch start p :: rest) k
            = firstProgWithKey rest k := by
          unfold firstProgWithKey
          rw [List.find?_cons_of_neg]
          simp [progKeyOf, hne]
        rw [hstep2, ih, hfirst]
      · have hstep2 : mergeProgStep false st (.programme ch start p)
            = { st with
                programmes :=
                  insertIfNew (ch, start) (.programme ch start p) st.programmes } := by
          simp only [mergeProgStep]
          rw [if_neg hskip, if_neg (by simp)]
        rw [hstep2, ih]
        by_cases hkey : (ch, start) = k
        · subst hkey
          have hfirst : firstProgWithKey (MElem.programme ch start p :: rest) (ch, start)
              = some (.programme ch start p) := by
            unfold firstProgWithKey
            rw [List.find?_cons_of_pos]
            simp [progKeyOf]
          rw [hfirst]
          cases hlook : alLookup (ch, start) st.programmes with
          | some v =>
            show (alLookup (ch, start) (insertIfNew (ch, start) _ st.programmes)).orElse _ = _
            rw [insertIfNew_of_some hlook, hlook]
            rfl
          | none =>
            show (alLookup (ch, start) (insertIfNew (ch, start) _ st.programmes)).orElse _ = _
            rw [alLookup_insertIfNew_self_none _ hlook]
            rfl
        · have hfirst : firstProgWithKey (MElem.programme ch start p :: rest) k
              = firstProgWithKey rest k := by
            unfold firstProgWithKey
            rw [List.find?_cons_of_neg]
            simp [progKeyOf, hkey]
          show (alLookup k (insertIfNew (ch, start) _ st.programmes)).orElse _ = _
          rw [alLookup_insertIfNew_ne hkey, hfirst]

theorem lookup_processSource_false {k : String × String}
    (hk1 : k.1 ≠ "") (hk2 : k.2 ≠ "") (st : MergeState) (name : String)
    (elems : List MElem) (hch : isChSource name = false) :
    alLookup k (processSource st name (some elems)).programmes
      = (alLookup k st.programmes).orElse (fun _ => firstProgWithKey elems k) := by
  show alLookup k
      (processProgrammes (isChSource name) (processChannels (isChSource name) st elems)
        elems).programmes = _
  rw [hch, lookup_processProgrammes_false hk1 hk2, processChannels_programmes]

theorem countP_congr_mem {α : Type} {p q : α → Bool} :
    ∀ {l : List α}, (∀ a ∈ l, p a = q a) → l.countP p = l.countP q := by
  intro l
  induction l with
  | nil => intro _; rfl
  | cons a rest ih =>
    intro h
    have ha := h a (List.mem_cons_self a rest)
    have hrest := ih fun b hb => h b (List.mem_cons_of_mem a hb)
    by_cases hp : p a = true
    · rw [List.countP_cons_of_pos _ _ hp, List.countP_cons_of_pos _ _ (ha ▸ hp), hrest]
    · rw [List.countP_cons_of_neg _ _ hp, List.countP_cons_of_neg _ _ (ha ▸ hp), hrest]

theorem countP_key_one {κ α : Type} [DecidableEq κ] {k : κ} {v : α} :
    ∀ {m : List (κ × α)}, keysNodup m → alLookup k m = some v →
      m.countP (fun kv => decide (kv.1 = k)) = 1 := by
  intro m
  induction m with
  | nil => intro _ h; simp [alLookup] at h
  | cons hd tl ih =>
    obtain ⟨k₁, v₁⟩ := hd
    intro hnodup hlook
    have hn1 := (List.nodup_cons.mp hnodup).1
    have hn2 := (List.nodup_cons.mp hnodup).2
    rw [alLookup] at hlook
    by_cases h : k₁ = k
    · rw [List.countP_cons_of_pos _ _ (by simpa using h)]
      have hzero : tl.countP (fun kv => decide (kv.1 = k)) = 0 := by
        rw [List.countP_eq_zero]
        intro kv hkv
        simp only [decide_eq_true_eq]
        intro he
        have hmem : kv.1 ∈ tl.map Prod.fst := List.mem_map_of_mem Prod.fst hkv
        rw [he] at hmem
        apply hn1
        rw [h]
        exact hmem
      rw [hzero]
    · rw [if_neg h] at hlook
      rw [List.countP_cons_of_neg _ _ (by simpa using h)]
      exact ih hn2 hlook

/-- C7: programmes are deduplicated across sources by
`(channel_id, start_string)` with the first occurrence winning: for two
non-CH sources processed in order, if the first source's first programme
with key `k` is `e₁` and the second source also contains a programme with
key `k`, the merged dict holds exactly `e₁` under `k`, and the output
document contains exactly one programme element with that key. -/
theorem merge_dedup_first_occurrence_wins
    (n₁ n₂ : String) (d₁ d₂ : List MElem) (k : String × String) (e₁ : MElem)
    (hc₁ : isChSource n₁ = false) (hc₂ : isChSource n₂ = false)
    (hk1 : k.1 ≠ "") (hk2 : k.2 ≠ "")
    (h₁ : firstProgWithKey d₁ k = some e₁)
    (_h₂ : ∃ e₂, firstProgWithKey d₂ k = some e₂) :
    alLookup k (mergeState [(n₁, some d₁), (n₂, some d₂)]).programmes = some e₁ ∧
    ∀ out, mergeOutput [(n₁, some d₁), (n₂, some d₂)] = some out →
      out.countP (hasProgKey k) = 1 := by
  have hlook : alLookup k (mergeState [(n₁, some d₁), (n₂, some d₂)]).programmes
      = some e₁ := by
    unfold mergeState
    rw [List.foldl_cons, List.foldl_cons, List.foldl_nil]
    rw [lookup_processSource_false hk1 hk2 _ _ _ hc₂,
        lookup_processSource_false hk1 hk2 _ _ _ hc₁]
    show ((firstProgWithKey d₁ k).orElse fun _ => firstProgWithKey d₂ k) = some e₁
    rw [h₁]
    rfl
  refine ⟨hlook, ?_⟩
  intro out hout
  have hinv := mergeInv_mergeState [(n₁, some d₁), (n₂, some d₂)]
  obtain ⟨hcwf, hpwf, _, hpnd⟩ := hinv
  simp only [mergeOutput] at hout
  by_cases hld : (mergeState [(n₁, some d₁), (n₂, some d₂)]).loaded = 0
  · rw [if_pos hld] at hout
    exact absurd hout (by simp)
  · rw [if_neg hld] at hout
    obtain rfl := (Option.some.inj hout).symm
    rw [List.countP_append]
    have hchan :
        ((((mergeState [(n₁, some d₁), (n₂, some d₂)]).channels.insertionSort
            chanPairLe).map Prod.snd).countP (hasProgKey k)) = 0 := by
      rw [List.countP_eq_zero]
      intro e he
      obtain ⟨kv, hkv, rfl⟩ := List.mem_map.mp he
      have hkv2 := (List.mem_insertionSort chanPairLe).mp hkv
      have := (hcwf kv hkv2).1
      unfold hasProgKey
      cases h : kv.2 with
      | channel id dns p => simp [progKeyOf]
      | programme ch start p => rw [h] at this; simp [isChannelElem] at this
    have hprog :
        ((((mergeState [(n₁, some d₁), (n₂, some d₂)]).programmes.insertionSort
            progPairLe).map Prod.snd).countP (hasProgKey k)) = 1 := by
      rw [List.countP_map]
      rw [(List.perm_insertionSort progPairLe _).countP_eq]
      rw [countP_congr_mem (q := fun kv => decide (kv.1 = k)) ?_]
      · exact countP_key_one hpnd hlook
      · intro kv hkv
        have hwf := hpwf kv hkv
        show hasProgKey k kv.2 = _
        rw [hasProgKey, hwf]
        by_cases h : kv.1 = k
        · subst h; simp
        · simp [h]
    rw [hchan, hprog]

/-- Witness for `merge_dedup_first_occurrence_wins`: two non-CH sources
each carry a programme for `("X", "20260101120000 +0100")` with different
payloads; the merged dict keeps the first source's element and the output
document contains exactly one element with that key. -/
theorem merge_dedup_first_occurrence_wins_inst :
    alLookup ("X", "20260101120000 +0100")
        (mergeState
          [("IT_primary", some [.programme "X" "20260101120000 +0100" "title-one"]),
           ("IT_backup", some [.programme "X" "20260101120000 +0100" "title-two"])]).programmes
      = some (.programme "X" "20260101120000 +0100" "title-one") ∧
    ([MElem.channel "X" [] "",
      MElem.programme "X" "20260101120000 +0100" "title-one"].countP
        (hasProgKey ("X", "20260101120000 +0100"))) = 1 := by
  refine ⟨?_, ?_⟩
  · exact (merge_dedup_first_occurrence_wins "IT_primary" "IT_backup"
      [.programme "X" "20260101120000 +0100" "title-one"]
      [.programme "X" "20260101120000 +0100" "title-two"]
      ("X", "20260101120000 +0100")
      (.programme "X" "20260101120000 +0100" "title-one")
      (by decide) (by decide) (by decide) (by decide) (by decide)
      ⟨.programme "X" "20260101120000 +0100" "title-two", by decide⟩).1
  · decide

/-! ### The output document of the Merger (C8) -/

/-- C8: when `merge_epg` writes an output (some source loaded), the element
list of the output document is fully determined by the merged dicts: every
channel element precedes every programme element, the channel section is
sorted by channel id and the programme section is sorted by the
`(channel, start)` key under Python's tuple/string order.  Since the
embedded `mergeOutput` is a pure function of the input documents and
serialization is a fixed function of this element list, two runs over
identical inputs produce byte-identical files. -/
theorem merge_output_sorted_deterministic
    (sources : List (String × Option (List MElem))) (out : List MElem)
    (hout : mergeOutput sources = some out) :
    ∃ cs ps, out = cs ++ ps ∧
      (∀ e ∈ cs, isChannelElem e = true) ∧
      (∀ e ∈ ps, isChannelElem e = false) ∧
      cs.Pairwise (fun e₁ e₂ => strLeb (elemChanId e₁) (elemChanId e₂) = true) ∧
      ps.Pairwise (fun e₁ e₂ =>
        ∃ k₁ k₂, progKeyOf e₁ = some k₁ ∧ progKeyOf e₂ = some k₂ ∧ keyLe k₁ k₂) := by
  obtain ⟨hcwf, hpwf, _, _⟩ := mergeInv_mergeState sources
  simp only [mergeOutput] at hout
  by_cases hld : (mergeState sources).loaded = 0
  · rw [if_pos hld] at hout
    exact absurd hout (by simp)
  · rw [if_neg hld] at hout
    obtain rfl := (Option.some.inj hout).symm
    refine ⟨_, _, rfl, ?_, ?_, ?_, ?_⟩
    · intro e he
      obtain ⟨kv, hkv, rfl⟩ := List.mem_map.mp he
      exact (hcwf kv ((List.mem_insertionSort chanPairLe).mp hkv)).1
    · intro e he
      obtain ⟨kv, hkv, rfl⟩ := List.mem_map.mp he
      have hwf := hpwf kv ((List.mem_insertionSort progPairLe).mp hkv)
      cases h : kv.2 with
      | channel id dns p => rw [h] at hwf; simp [progKeyOf] at hwf
      | programme ch start p => rfl
    · rw [List.pairwise_map]
      have hsorted := pairwise_insertionSort chanPairLe chanPairLe_total
        (fun _ _ _ h1 h2 => chanPairLe_trans h1 h2) (mergeState sources).channels
      refine hsorted.imp_of_mem ?_
      intro a b ha hb h
      have hwa := hcwf a ((List.mem_insertionSort chanPairLe).mp ha)
      have hwb := hcwf b ((List.mem_insertionSort chanPairLe).mp hb)
      rw [hwa.2, hwb.2]
      exact h
    · rw [List.pairwise_map]
      have hsorted := pairwise_insertionSort progPairLe progPairLe_total
        (fun _ _ _ h1 h2 => progPairLe_trans h1 h2) (mergeState sources).programmes
      refine hsorted.imp_of_mem ?_
      intro a b ha hb h
      have hwa := hpwf a ((List.mem_insertionSort progPairLe).mp ha)
      have hwb := hpwf b ((List.mem_insertionSort progPairLe).mp hb)
      exact ⟨a.1, b.1, hwa, hwb, h⟩

/-- Witness for `merge_output_sorted_deterministic`: a source whose
document lists channels `B`, `A` and programmes with starts `t2`, `t1` out
of order; the output puts the channels first, each section sorted. -/
theorem merge_output_sorted_deterministic_inst :
    ∃ cs ps,
      ([MElem.channel "A" [] "", MElem.channel "B" [] "",
        MElem.programme "X" "t1" "", MElem.programme "X" "t2" ""] : List MElem)
        = cs ++ ps ∧
      (∀ e ∈ cs, isChannelElem e = true) ∧
      (∀ e ∈ ps, isChannelElem e = false) ∧
      cs.Pairwise (fun e₁ e₂ => strLeb (elemChanId e₁) (elemChanId e₂) = true) ∧
      ps.Pairwise (fun e₁ e₂ =>
        ∃ k₁ k₂, progKeyOf e₁ = some k₁ ∧ progKeyOf e₂ = some k₂ ∧ keyLe k₁ k₂) :=
  merge_output_sorted_deterministic
    [("S", some [.channel "B" [] "", .channel "A" [] "",
      .programme "X" "t2" "", .programme "X" "t1" ""])]
    [.channel "A" [] "", .channel "B" [] "",
      .programme "X" "t1" "", .programme "X" "t2" ""]
    (by decide)
